import Mathlib

/-!
Shallow embedding of the core of the `clanki` repository in Lean 4,
together with theorems checking the natural-language specification
against it.

* `clanki/audio.py`: audio placeholder parsing (`parse_audio_placeholders`),
  icon substitution (`substitute_audio_icons`), file resolution
  (`resolve_audio_files`), indexed playback (`play_audio_by_index`),
  and the playback controller's shared-state discipline
  (`play_audio_files` worker / `stop_audio`).
* `src/clanki/render/html.py`: the plain-text whitespace normalization
  (`_normalize_whitespace`).
* The styled-segment transducer (`render_html_to_styled_segments`) is not
  part of the sources here (only its tests and callers are); its
  whitespace-repair step is modelled from the spec.

Text is embedded as `List Char`; Python's `re` operations for the concrete
patterns used by the code are embedded as explicit scanners with the same
semantics (leftmost, non-overlapping, greedy sub-matches).
-/

namespace Clanki

/-- ASCII whitespace as matched by Python's `\s` and stripped by `str.strip()`
for the character set relevant here. -/
def isSpaceChar (c : Char) : Bool :=
  c = ' ' || c = '\t' || c = '\n' || c = '\x0d' || c = '\x0b' || c = '\x0c'

/-- Python `str.strip()`: drop whitespace from both ends. -/
def pyStrip (cs : List Char) : List Char :=
  ((cs.dropWhile isSpaceChar).reverse.dropWhile isSpaceChar).reverse

/-- Embeds `AudioPlaceholder` from `clanki/audio.py`: the trimmed reference
and the start/end offsets of the match (`end` is a Lean keyword, so the
field is named `endPos`). -/
structure AudioPlaceholder where
  value : List Char
  start : Nat
  endPos : Nat
  deriving Repr, DecidableEq

/-- The literal characters of the fixed part `[audio:` of the pattern
`\[audio:\s*([^\]]+)\]`. -/
def audioTagChars : List Char := ['[', 'a', 'u', 'd', 'i', 'o', ':']

/-- Tries the regex `\[audio:\s*([^\]]+)\]` anchored at the head of `cs`.
On success returns the raw group-1 region before stripping — by greediness
of `\s*` and `[^\]]+` the match extends exactly to the first `]` after
`[audio:`, and requires at least one character in between — together with
the total matched length. -/
def matchAudioAt (cs : List Char) : Option (List Char × Nat) :=
  if audioTagChars.isPrefixOf cs then
    let rest := cs.drop 7
    let content := rest.takeWhile (fun c => c ≠ ']')
    if content ≠ [] ∧ rest.dropWhile (fun c => c ≠ ']') ≠ [] then
      some (content, content.length + 8)
    else
      none
  else none

/-- The scan underlying `re.finditer` for this pattern: try the anchored match
at every position from the left, emit each match, and resume after its end
(leftmost, non-overlapping).  `fuel` is an upper bound on the number of
steps; `fuel = cs.length` always suffices since every step consumes at
least one character. -/
def parseAudioAux (fuel : Nat) (cs : List Char) (pos : Nat) : List AudioPlaceholder :=
  match fuel, cs with
  | 0, _ => []
  | _, [] => []
  | fuel + 1, c :: cs' =>
    match matchAudioAt (c :: cs') with
    | some (content, n) =>
      { value := pyStrip content, start := pos, endPos := pos + n }
        :: parseAudioAux fuel ((c :: cs').drop n) (pos + n)
    | none => parseAudioAux fuel cs' (pos + 1)

/-- Embeds `parse_audio_placeholders` from `clanki/audio.py`:
`AUDIO_PLACEHOLDER_PATTERN.finditer(text)` with `value = group(1).strip()`. -/
def parse_audio_placeholders (cs : List Char) : List AudioPlaceholder :=
  parseAudioAux cs.length cs 0

/-- `AUDIO_ICON` from `clanki/audio.py` (U+1F50A speaker emoji). -/
def AUDIO_ICON : List Char := [Char.ofNat 0x1F50A]

/-- The replacement function `replace_with_key` of `substitute_audio_icons`:
for the `counter`-th match (1-indexed), key `counter + 4`; keys above 9 show
the bare icon. -/
def replaceWithKey (counter : Nat) : List Char :=
  let key := counter + 4
  if key ≤ 9 then
    AUDIO_ICON ++ ('[' :: (Nat.toDigits 10 key) ++ [']'])
  else
    AUDIO_ICON

/-- The scan underlying `re.sub` with a replacement function: copy characters
until a match, emit the replacement, resume after the match end, threading
the 1-indexed match counter. -/
def subAudioAux (fuel : Nat) (cs : List Char) (counter : Nat) : List Char :=
  match fuel, cs with
  | 0, _ => []
  | _, [] => []
  | fuel + 1, c :: cs' =>
    match matchAudioAt (c :: cs') with
    | some (_, n) =>
      replaceWithKey (counter + 1) ++ subAudioAux fuel ((c :: cs').drop n) (counter + 1)
    | none => c :: subAudioAux fuel cs' counter

/-- Embeds `substitute_audio_icons` from `clanki/audio.py`:
`AUDIO_PLACEHOLDER_PATTERN.sub(replace_with_key, text)` with the counter
starting at 0. -/
def substitute_audio_icons (cs : List Char) : List Char :=
  subAudioAux cs.length cs 0

/-- Python `str.isdigit()` for one character, complete for the Latin-1
repertoire: within U+0000..U+00FF the characters with Numeric_Type Decimal
or Digit are exactly the ASCII digits `0`-`9` and the superscript digits
`¹` (U+00B9), `²` (U+00B2), `³` (U+00B3) — the latter are accepted by
`isdigit` but rejected by `int()`.  Decimal digits above U+00FF (which both
`isdigit` and `int` accept) are outside the modelled repertoire and
classified as non-digits. -/
def pyIsDigitChar (c : Char) : Bool :=
  c.isDigit || c = '¹' || c = '²' || c = '³'

/-- Python `str.isdigit()`: nonempty and every character digit-classified. -/
def pyIsDigitStr (cs : List Char) : Bool :=
  cs ≠ [] && cs.all pyIsDigitChar

/-- The numeric value of an all-ASCII-digit string. -/
def natOfDigits (cs : List Char) : Nat :=
  cs.foldl (fun a c => 10 * a + (c.toNat - '0'.toNat)) 0

/-- Python `int(s)` on an `isdigit`-true string: `int` accepts exactly the
decimal (`Nd`) digits — in the modelled repertoire the ASCII digits — and
raises `ValueError` on the superscript digits (`int('²')` raises although
`'²'.isdigit()` is `True`).  `Except.error ()` models the raised
`ValueError`. -/
def pyIntOfDigits (cs : List Char) : Except Unit Nat :=
  if cs ≠ [] && cs.all Char.isDigit then Except.ok (natOfDigits cs)
  else Except.error ()

/-- The `is_index` property of `AudioPlaceholder`: `self.value.isdigit()`. -/
def AudioPlaceholder.is_index (p : AudioPlaceholder) : Bool :=
  pyIsDigitStr p.value

/-- The `index` property of `AudioPlaceholder`:
`int(self.value) if self.is_index else None`, propagating the `ValueError`
that `int` raises on digit-classified values it does not accept. -/
def AudioPlaceholder.index (p : AudioPlaceholder) : Except Unit (Option Nat) :=
  if p.is_index then (pyIntOfDigits p.value).map some else Except.ok none

/-- Python `pathlib`'s `media_dir / name`, embedded as string concatenation
with a separator (paths are modelled as strings). -/
def joinPath (d name : List Char) : List Char :=
  d ++ '/' :: name

/-- The body of the resolution loop of `resolve_audio_files`: resolve one
placeholder (by index, valid only within `audio_files`, or by filename) and
append it to `resolved` only when the resolved path exists.  An uncaught
`ValueError` from `placeholder.index` (exception propagation made explicit
as `Except.error`) aborts the whole call. -/
def resolveStep (fsExists : List Char → Bool) (d : List Char)
    (audio_files : List (List Char)) (resolved : List (List Char))
    (p : AudioPlaceholder) : Except Unit (List (List Char)) :=
  let filepathE : Except Unit (Option (List Char)) :=
    if p.is_index then
      match p.index with
      | Except.error e => Except.error e
      | Except.ok (some idx) =>
        Except.ok (if idx < audio_files.length then
          some (joinPath d (audio_files.getD idx []))
        else none)
      | Except.ok none => Except.ok none
    else Except.ok (some (joinPath d p.value))
  match filepathE with
  | Except.error e => Except.error e
  | Except.ok (some fp) =>
    Except.ok (if fsExists fp then resolved ++ [fp] else resolved)
  | Except.ok none => Except.ok resolved

/-- The resolution loop with explicit exception propagation. -/
def resolveFold (fsExists : List Char → Bool) (d : List Char)
    (audio_files : List (List Char)) (resolved : List (List Char)) :
    List AudioPlaceholder → Except Unit (List (List Char))
  | [] => Except.ok resolved
  | p :: ps =>
    match resolveStep fsExists d audio_files resolved p with
    | Except.error e => Except.error e
    | Except.ok next => resolveFold fsExists d audio_files next ps

/-- Embeds `resolve_audio_files` from `clanki/audio.py`.  The filesystem is
an oracle `fsExists`; `media_dir = none` short-circuits to `[]`; otherwise
the placeholder list is folded through `resolveStep`, and the `ValueError`
that `int` raises on a digit-classified but unparseable value (`[audio: ²]`)
escapes as `Except.error`. -/
def resolve_audio_files (fsExists : List Char → Bool) (text : List Char)
    (audio_files : List (List Char)) (media_dir : Option (List Char)) :
    Except Unit (List (List Char)) :=
  match media_dir with
  | none => Except.ok []
  | some d =>
    resolveFold fsExists d audio_files [] (parse_audio_placeholders text)

/-- Embeds `play_audio_by_index` from `clanki/audio.py`.  The downstream
`play_audio_files` call is an oracle `play` returning the success flag and
the error messages it emits; `on_error` is modelled by collecting emitted
messages.  Returns `(result, messages)`, or `Except.error` for the
`ValueError` propagating out of `resolve_audio_files`. -/
def play_audio_by_index (fsExists : List Char → Bool)
    (play : List (List Char) → Bool × List (List Char))
    (text : List Char) (audio_files : List (List Char))
    (media_dir : Option (List Char)) (index : Int) :
    Except Unit (Bool × List (List Char)) :=
  match resolve_audio_files fsExists text audio_files media_dir with
  | Except.error e => Except.error e
  | Except.ok resolved =>
    if resolved = [] then
      Except.ok (false, ["No audio files available".data])
    else
      let zero_index := index - 1
      if zero_index < 0 ∨ (resolved.length : Int) ≤ zero_index then
        Except.ok (false, [("Audio " ++ toString index ++ " not found (have " ++
          toString resolved.length ++ " audio files)").data])
      else
        Except.ok (play [resolved.getD zero_index.toNat []])

/-! ### Playback controller shared state (`clanki/audio.py`)

The module-level variables `_running_process`, `_playback_thread`,
`_playback_stop_event` are guarded by the single `_process_lock`; every
access in the source happens inside `with _process_lock:` blocks, so each
such block is embedded as one atomic transformer of `PlaybackState`.
Threads, processes and stop events are identified by `Nat` tokens standing
for Python object identity (`is`). -/

structure PlaybackState where
  running_process : Option Nat
  playback_thread : Option Nat
  playback_stop_event : Option Nat
  deriving Repr, DecidableEq

/-- The registration step of `play_audio_files`: under the lock,
`_playback_thread = thread; _playback_stop_event = stop_event`. -/
def registerWorker (thread stop_event : Nat) (s : PlaybackState) : PlaybackState :=
  { s with playback_thread := some thread, playback_stop_event := some stop_event }

/-- The `finally` block of `_worker` in `play_audio_files`: under the lock,
clear all three fields only if `_playback_thread is worker_thread`. -/
def workerFinalize (worker_thread : Nat) (s : PlaybackState) : PlaybackState :=
  if s.playback_thread = some worker_thread then
    { running_process := none, playback_thread := none, playback_stop_event := none }
  else s

/-- Per-iteration observations a worker makes of the concurrent environment:
the stop-event value at the loop-entry check and at the locked pre-launch
check, whether the locked check still finds this worker registered, whether
the process spawn raises, and the exit status / stop-event value at the
post-wait check. -/
structure WorkerEnv where
  stopAtEntry : Nat → Bool
  stopAtLock : Nat → Bool
  registeredAtLock : Nat → Bool
  launchRaises : Nat → Bool
  returnCode : Nat → Int
  stopAfterWait : Nat → Bool

/-- Embeds the loop of `_worker` in `play_audio_files`, recording the indices
of the files for which the external player process launch is reached
(`subprocess.Popen` is called).  Iteration `i`: break if the stop event is
set at loop entry; under the lock, break if the stop event is set or this
worker is no longer the registered one, else launch; on a spawn exception
report and break; after waiting, break on a nonzero exit status unless the
stop event was set. -/
def workerLaunchIndices (env : WorkerEnv) : Nat → Nat → List Nat
  | _, 0 => []
  | i, remaining + 1 =>
    if env.stopAtEntry i then []
    else if env.stopAtLock i || !env.registeredAtLock i then []
    else if env.launchRaises i then [i]
    else if env.returnCode i ≠ 0 && !env.stopAfterWait i then [i]
    else i :: workerLaunchIndices env (i + 1) remaining


/-! ### Plain-text whitespace normalization (`src/clanki/render/html.py`) -/

/-- Line-break characters recognized by the embedding of Python
`str.splitlines()` (the subset that can occur in this pipeline's text). -/
def isLineBreakChar (c : Char) : Bool :=
  c = '\n' || c = '\x0d' || c = '\x0b' || c = '\x0c'

/-- Accumulator pass for `str.splitlines()`: `\r\n` counts as one break and
a trailing break produces no empty final line. -/
def splitlinesAux (acc : List Char) : List Char → List (List Char)
  | [] => if acc = [] then [] else [acc.reverse]
  | '\x0d' :: '\n' :: rest => acc.reverse :: splitlinesAux [] rest
  | c :: rest =>
    if isLineBreakChar c then acc.reverse :: splitlinesAux [] rest
    else splitlinesAux (c :: acc) rest

/-- Python `str.splitlines()`. -/
def pySplitlines (cs : List Char) : List (List Char) :=
  splitlinesAux [] cs

/-- Accumulator pass for no-argument `str.split()`: split on whitespace
runs, emitting no empty words. -/
def pySplitAux (acc : List Char) : List Char → List (List Char)
  | [] => if acc = [] then [] else [acc.reverse]
  | c :: rest =>
    if isSpaceChar c then
      if acc = [] then pySplitAux [] rest
      else acc.reverse :: pySplitAux [] rest
    else pySplitAux (c :: acc) rest

/-- Python no-argument `str.split()`. -/
def pySplit (cs : List Char) : List (List Char) :=
  pySplitAux [] cs

/-- The leading-whitespace handling of `_normalize_whitespace`: an all-space
nonempty leading run is kept as `"  " * (len // 2)`; any other leading
whitespace (empty, or containing tabs etc.) becomes empty. -/
def cleanIndent (leading : List Char) : List Char :=
  if leading ≠ [] ∧ leading.all (fun c => c = ' ') then
    List.replicate (2 * (leading.length / 2)) ' '
  else []

/-- `" ".join(line.split())` — collapse internal whitespace. -/
def collapseInner (line : List Char) : List Char :=
  List.intercalate [' '] (pySplit line)

/-- The per-line loop of `_normalize_whitespace`, transcribed with the
growing `cleaned` list as the accumulator: a line with nonempty collapsed
content contributes `leading ++ content`; an empty one contributes a single
blank line only when the accumulator is nonempty and does not already end
with a blank. -/
def cleanedFoldAux (acc : List (List Char)) : List (List Char) → List (List Char)
  | [] => acc
  | line :: rest =>
    let leading := cleanIndent (line.takeWhile isSpaceChar)
    let content := collapseInner line
    if content ≠ [] then cleanedFoldAux (acc ++ [leading ++ content]) rest
    else if acc ≠ [] ∧ acc.getLast? ≠ some [] then cleanedFoldAux (acc ++ [[]]) rest
    else cleanedFoldAux acc rest

/-- The `while cleaned and cleaned[-1] == "": cleaned.pop()` loop. -/
def dropTrailBlanks (ls : List (List Char)) : List (List Char) :=
  (ls.reverse.dropWhile (fun l => l = [])).reverse

/-- The `while cleaned and cleaned[0] == "": cleaned.pop(0)` loop. -/
def dropLeadBlanks (ls : List (List Char)) : List (List Char) :=
  ls.dropWhile (fun l => l = [])

/-- Embeds `_normalize_whitespace` from `src/clanki/render/html.py`. -/
def _normalize_whitespace (text : List Char) : List Char :=
  List.intercalate ['\n']
    (dropLeadBlanks (dropTrailBlanks (cleanedFoldAux [] (pySplitlines text))))

/-- The spec side of the per-line step of the whitespace normalization
(refinement comparison for C7, amended): collapse inner whitespace runs to
single spaces and strip the ends; keep all-space leading indentation
rounded down to a multiple of 2 spaces; discard leading whitespace that
contains non-space whitespace characters; a line with no content becomes a
blank line. -/
def specLineOut (line : List Char) : List Char :=
  let content := collapseInner line
  if content = [] then []
  else
    (if (line.takeWhile isSpaceChar).all (fun c => c = ' ') then
        List.replicate (2 * ((line.takeWhile isSpaceChar).length / 2)) ' '
      else []) ++ content

/-- Collapse every run of blank lines to a single blank line. -/
def squeezeBlankRuns (prevBlank : Bool) : List (List Char) → List (List Char)
  | [] => []
  | x :: rest =>
    if x = [] then
      if prevBlank then squeezeBlankRuns true rest
      else [] :: squeezeBlankRuns true rest
    else x :: squeezeBlankRuns false rest

/-- The spec side of the whole normalization (refinement comparison for C7,
amended): per-line cleanup, blank runs collapsed to one blank line, leading
and trailing blank lines trimmed. -/
def specNormalize (text : List Char) : List Char :=
  List.intercalate ['\n']
    (dropTrailBlanks (dropLeadBlanks
      (squeezeBlankRuns false ((pySplitlines text).map specLineOut))))

/-! ### Styled-segment whitespace repair

`render_html_to_styled_segments` (the current `clanki/render/html.py`) is
not among the sources — only its tests and its caller `clanki/tui/render.py`
are — so its whitespace-repair step is modelled from the spec at the level
of the emitted units: ordinary text data and styled/cloze units. -/

/-- Modelled from the spec: a unit of transducer output — ordinary text, or
the text of a styled (inline-style tag or cloze) unit.  The missing code is
`render_html_to_styled_segments` in `clanki/render/html.py`. -/
inductive RenderUnit
  | data (text : List Char)
  | styled (text : List Char)
  deriving Repr, DecidableEq

def RenderUnit.text : RenderUnit → List Char
  | .data t => t
  | .styled t => t

def RenderUnit.isStyled : RenderUnit → Bool
  | .data _ => false
  | .styled _ => true

/-- Modelled from the spec: the non-space "word" characters whose adjacency
across a styled boundary triggers the single-space repair. -/
def isWordCharSpec (c : Char) : Bool :=
  c.isAlphanum

/-- Whether the text ends with a word character. -/
def endsWithWord (cs : List Char) : Bool :=
  match cs.getLast? with
  | some c => isWordCharSpec c
  | none => false

/-- Whether the text starts with a word character. -/
def startsWithWord (cs : List Char) : Bool :=
  match cs.head? with
  | some c => isWordCharSpec c
  | none => false

/-- Modelled from the spec: append one unit's text to the output so far,
inserting a single space at a styled/cloze boundary when the adjacent
characters on both sides are word characters, but never inserting a leading
space when the output is still empty. -/
def repairJoin (out piece : List Char) (styledBoundary : Bool) : List Char :=
  if styledBoundary && out ≠ [] && endsWithWord out && startsWithWord piece then
    out ++ ' ' :: piece
  else out ++ piece

/-- Modelled from the spec: fold the unit stream left to right; a boundary
is a styled boundary when the incoming unit or the previous unit is
styled. -/
def renderStyledAux (out : List Char) (prevStyled : Bool) :
    List RenderUnit → List Char
  | [] => out
  | u :: us =>
    renderStyledAux (repairJoin out u.text (prevStyled || u.isStyled)) u.isStyled us

/-- Modelled from the spec: the concatenated text of the styled-segment
output of the transducer, restricted to the whitespace-repair behavior. -/
def renderStyledUnits (us : List RenderUnit) : List Char :=
  renderStyledAux [] false us

/-- The spec's intended layout for word-only units: texts joined with a
single space exactly at boundaries adjacent to a styled unit. -/
def specWordLayout : List RenderUnit → List Char
  | [] => []
  | [u] => u.text
  | u :: v :: us =>
    u.text ++ (if u.isStyled || v.isStyled then [' '] else []) ++
      specWordLayout (v :: us)

/-- The spec's words for resolving a single audio placeholder (refinement
comparison for C5): an index-referenced placeholder is valid only when
`0 ≤ index < len(audio_file_list)` and maps to
`media_dir / audio_file_list[index]`; a filename-referenced one maps to
`media_dir / value`; a placeholder that fails to resolve, or whose resolved
path does not exist, yields nothing. -/
def specResolveOne (fsExists : List Char → Bool) (d : List Char)
    (audio_files : List (List Char)) (p : AudioPlaceholder) :
    Option (List Char) :=
  let path : Option (List Char) :=
    if pyIsDigitStr p.value then
      if natOfDigits p.value < audio_files.length then
        some (joinPath d (audio_files.getD (natOfDigits p.value) []))
      else none
    else some (joinPath d p.value)
  match path with
  | some fp => if fsExists fp then some fp else none
  | none => none

/-- Reconstruction of a substitution pass from a placeholder list: copy the
text before each span verbatim, emit `rep` of the 1-indexed match counter
for the span, and continue after it.  `pos` is the absolute position of the
head of `cs`; `k` the number of replacements already made. -/
def stitchWith (rep : Nat → List Char) :
    List Char → Nat → Nat → List AudioPlaceholder → List Char
  | cs, _, _, [] => cs
  | cs, pos, k, p :: ps =>
    cs.take (p.start - pos) ++ rep (k + 1) ++
      stitchWith rep (cs.drop (p.endPos - pos)) p.endPos (k + 1) ps

/-- The spec's words for the icon a placeholder is replaced by: the Nth
placeholder (1-indexed) becomes the speaker icon suffixed with key `[N+4]`
for N in 1..5, and the bare icon from the 6th onward. -/
def specIconFor (n : Nat) : List Char :=
  if n ≤ 5 then AUDIO_ICON ++ ('[' :: (Nat.toDigits 10 (n + 4)) ++ [']'])
  else AUDIO_ICON

/-- The spec layout written as a running fold: the separator before each
unit is a single space when the previous or the incoming unit is styled. -/
def tailLayout (prev : Bool) : List RenderUnit → List Char
  | [] => []
  | u :: us =>
    (if prev || u.isStyled then [' '] else []) ++ u.text ++ tailLayout u.isStyled us

/-! ## Theorems -/

/-- C1: whenever a playback worker finishes its loop, the `finally` cleanup
clears the shared playback state (process handle, worker handle, stop
signal) only if it is still the currently-registered worker (identity check
inside the single `_process_lock` critical section, embedded here as one
atomic transformer); a superseded worker finishing late leaves a newer
worker's registration unchanged — in particular a stale finalize after a
new registration is a no-op — and, the registration being a single
optional field, at most one worker is registered as active at any time. -/
theorem worker_finalize_only_when_registered :
    (∀ (w : Nat) (s : PlaybackState), s.playback_thread ≠ some w →
        workerFinalize w s = s) ∧
    (∀ (w : Nat) (s : PlaybackState), s.playback_thread = some w →
        workerFinalize w s =
          { running_process := none, playback_thread := none,
            playback_stop_event := none }) ∧
    (∀ (s : PlaybackState) (w1 w2 : Nat), s.playback_thread = some w1 →
        s.playback_thread = some w2 → w1 = w2) ∧
    (∀ (w1 w2 ev2 : Nat) (s : PlaybackState), w1 ≠ w2 →
        workerFinalize w1 (registerWorker w2 ev2 s) = registerWorker w2 ev2 s) := by
  refine ⟨?_, ?_, ?_, ?_⟩
  · intro w s h
    simp [workerFinalize, h]
  · intro w s h
    simp [workerFinalize, h]
  · intro s w1 w2 h1 h2
    rw [h1] at h2
    exact Option.some.inj h2
  · intro w1 w2 ev2 s h
    simp [workerFinalize, registerWorker, Ne.symm h]

/-- Witness for C1 at concrete state: a stale worker 1 finalizing after
worker 2 registered leaves the registration untouched. -/
theorem worker_finalize_only_when_registered_witness :
    workerFinalize 1 (registerWorker 2 7 ⟨none, some 1, some 5⟩) =
      registerWorker 2 7 ⟨none, some 1, some 5⟩ :=
  worker_finalize_only_when_registered.2.2.2 1 2 7 ⟨none, some 1, some 5⟩
    (by decide)

/-- C2: in the playback worker loop, every iteration at which the external
player launch is reached passed the locked pre-launch re-check: the stop
signal was unset and the worker was still the registered one at that check
(and the unlocked loop-entry check also passed); when either check fails
the loop breaks with no launch at that or any later iteration, which is why
no launched index can carry a failing observation. -/
theorem worker_launch_requires_checks :
    ∀ (env : WorkerEnv) (i0 remaining i : Nat),
      i ∈ workerLaunchIndices env i0 remaining →
      env.stopAtEntry i = false ∧ env.stopAtLock i = false ∧
        env.registeredAtLock i = true := by
  intro env i0 remaining
  induction remaining generalizing i0 with
  | zero => intro i h; simp [workerLaunchIndices] at h
  | succ m ih =>
    intro i h
    rw [workerLaunchIndices] at h
    by_cases h1 : env.stopAtEntry i0
    · simp [h1] at h
    · by_cases h2 : env.stopAtLock i0 || !env.registeredAtLock i0
      · simp [h1, h2] at h
      · simp only [h1, h2, if_false, if_true, Bool.false_eq_true] at h
        simp only [Bool.or_eq_true, not_or, Bool.not_eq_true, Bool.not_eq_true',
          Bool.not_eq_false] at h2
        by_cases h3 : env.launchRaises i0 = true
        · rw [if_pos h3, List.mem_singleton] at h
          subst h
          exact ⟨by simpa using h1, h2.1, h2.2⟩
        · rw [if_neg h3] at h
          by_cases h4 :
              (decide (env.returnCode i0 ≠ 0) && !env.stopAfterWait i0) = true
          · rw [if_pos h4, List.mem_singleton] at h
            subst h
            exact ⟨by simpa using h1, h2.1, h2.2⟩
          · rw [if_neg h4, List.mem_cons] at h
            rcases h with h | h
            · subst h
              exact ⟨by simpa using h1, h2.1, h2.2⟩
            · exact ih (i0 + 1) i h

/-- Witness for C2: a concrete environment stopping at the third clip, with
the theorem applied at launched index 1. -/
theorem worker_launch_requires_checks_witness :
    WorkerEnv.stopAtLock
        ⟨fun i => decide (2 ≤ i), fun _ => false, fun _ => true,
         fun _ => false, fun _ => 0, fun _ => false⟩ 1 = false ∧
      WorkerEnv.registeredAtLock
        ⟨fun i => decide (2 ≤ i), fun _ => false, fun _ => true,
         fun _ => false, fun _ => 0, fun _ => false⟩ 1 = true :=
  ⟨(worker_launch_requires_checks _ 0 5 1 (by decide)).2.1,
   (worker_launch_requires_checks _ 0 5 1 (by decide)).2.2⟩


/-- On a placeholder whose digit-classified value is all ASCII digits (or
is not digit-classified at all), one resolution step is exception-free and
agrees with the spec-side description. -/
theorem resolveStep_ok (fsExists : List Char → Bool) (d : List Char)
    (audio_files : List (List Char)) (resolved : List (List Char))
    (p : AudioPlaceholder)
    (hgood : p.is_index = true → p.value.all Char.isDigit = true) :
    resolveStep fsExists d audio_files resolved p =
      Except.ok (resolved ++ (specResolveOne fsExists d audio_files p).toList) := by
  by_cases hd : p.is_index = true
  · have hds : pyIsDigitStr p.value = true := hd
    have hvne : p.value ≠ [] := by
      unfold pyIsDigitStr at hds
      simp only [Bool.and_eq_true, decide_eq_true_eq] at hds
      exact hds.1
    have hint : pyIntOfDigits p.value = Except.ok (natOfDigits p.value) := by
      unfold pyIntOfDigits
      rw [if_pos (by simp [hvne, hgood hd])]
    have hidx : p.index = Except.ok (some (natOfDigits p.value)) := by
      unfold AudioPlaceholder.index
      rw [if_pos hd, hint]
      rfl
    by_cases hlen : natOfDigits p.value < audio_files.length
    · simp only [resolveStep, specResolveOne, hd, hds, hidx, hlen, if_true]
      split_ifs <;> simp
    · simp [resolveStep, specResolveOne, hd, hds, hidx, hlen]
  · have hb : p.is_index = false := by simpa using hd
    have hds : pyIsDigitStr p.value = false := hb
    simp only [resolveStep, specResolveOne, hb, hds,
      Bool.false_eq_true, if_false]
    split_ifs with hfs <;> simp [hfs]

/-- The resolution loop is exception-free on good placeholder lists and
appends exactly the spec-resolved entries in order. -/
theorem resolveFold_ok (fsExists : List Char → Bool) (d : List Char)
    (audio_files : List (List Char)) :
    ∀ (ps : List AudioPlaceholder) (resolved : List (List Char)),
      (∀ p ∈ ps, p.is_index = true → p.value.all Char.isDigit = true) →
      resolveFold fsExists d audio_files resolved ps =
        Except.ok (resolved ++ ps.filterMap (specResolveOne fsExists d audio_files)) := by
  intro ps
  induction ps with
  | nil => intro resolved _; simp [resolveFold]
  | cons p ps ih =>
    intro resolved hgood
    rw [resolveFold,
      resolveStep_ok fsExists d audio_files resolved p
        (hgood p (List.mem_cons_self _ _))]
    show resolveFold fsExists d audio_files
      (resolved ++ (specResolveOne fsExists d audio_files p).toList) ps = _
    rw [ih _ (fun q hq => hgood q (List.mem_cons_of_mem _ hq)),
      List.filterMap_cons]
    cases h : specResolveOne fsExists d audio_files p with
    | none => simp [h]
    | some fp => simp [h]

/-- On inputs whose digit-classified placeholder values are plain ASCII
digits, `resolve_audio_files` is exception-free and returns, in
left-to-right placeholder order, exactly the spec-resolved existing files;
a `none` media directory always yields the empty list. -/
theorem resolve_audio_files_ok_spec :
    ∀ (fsExists : List Char → Bool) (text : List Char)
      (audio_files : List (List Char)),
      resolve_audio_files fsExists text audio_files none = Except.ok [] ∧
      ∀ d : List Char,
        (∀ p ∈ parse_audio_placeholders text,
          p.is_index = true → p.value.all Char.isDigit = true) →
        resolve_audio_files fsExists text audio_files (some d) =
          Except.ok ((parse_audio_placeholders text).filterMap
            (specResolveOne fsExists d audio_files)) := by
  intro fsExists text audio_files
  refine ⟨rfl, ?_⟩
  intro d hgood
  show resolveFold fsExists d audio_files [] (parse_audio_placeholders text) = _
  rw [resolveFold_ok fsExists d audio_files _ [] hgood]
  simp

/-- C5: the claim's silent-drop policy breaks on the failing input
`[audio: ²]`: `'²'.isdigit()` is true, so the placeholder is
index-classified, but `int('²')` raises `ValueError`, which escapes
`resolve_audio_files` instead of the placeholder being dropped. -/
theorem resolve_audio_files_raises_on_superscript :
    pyIsDigitStr ['²'] = true ∧
    pyIntOfDigits ['²'] = Except.error () ∧
    resolve_audio_files (fun _ => false) "[audio: ²]".data []
        (some "m".data) = Except.error () :=
  ⟨by decide, rfl, rfl⟩

/-- On the exception-free path, `play_audio_by_index` maps the 1-based
display index into the already-filtered resolution list: an empty list or
an out-of-range index reports the corresponding message through the
callback and returns failure, and in range it plays exactly the selected
resolved entry. -/
theorem play_audio_by_index_ok_spec :
    ∀ (fsExists : List Char → Bool)
      (play : List (List Char) → Bool × List (List Char))
      (text : List Char) (audio_files : List (List Char))
      (media_dir : Option (List Char)) (index : Int)
      (resolved : List (List Char)),
      resolve_audio_files fsExists text audio_files media_dir =
        Except.ok resolved →
      ((resolved = [] →
        play_audio_by_index fsExists play text audio_files media_dir index =
          Except.ok (false, ["No audio files available".data])) ∧
      (resolved ≠ [] →
        (index - 1 < 0 ∨ (resolved.length : Int) ≤ index - 1) →
        play_audio_by_index fsExists play text audio_files media_dir index =
          Except.ok (false, [("Audio " ++ toString index ++ " not found (have " ++
            toString resolved.length ++ " audio files)").data])) ∧
      (resolved ≠ [] → 0 ≤ index - 1 → index - 1 < (resolved.length : Int) →
        play_audio_by_index fsExists play text audio_files media_dir index =
          Except.ok (play [resolved.getD (index - 1).toNat []]))) := by
  intro fsExists play text audio_files media_dir index resolved hres
  refine ⟨?_, ?_, ?_⟩
  · intro h
    unfold play_audio_by_index
    rw [hres]
    simp [h]
  · intro h hrange
    unfold play_audio_by_index
    rw [hres]
    simp only [h, if_false, if_pos hrange]
  · intro h h0 hlt
    unfold play_audio_by_index
    rw [hres]
    have : ¬ (index - 1 < 0 ∨ (resolved.length : Int) ≤ index - 1) := by
      push_neg
      exact ⟨h0, hlt⟩
    simp only [h, if_false, if_neg this]

/-- C8: on the failing input `[audio: ²]` with a media directory present,
the `ValueError` raised by `int('²')` propagates out of
`play_audio_by_index` instead of an error report through the callback with
a `False` return. -/
theorem play_audio_by_index_raises_on_superscript :
    play_audio_by_index (fun _ => false) (fun _ => (true, []))
        "[audio: ²]".data [] (some "m".data) 1 = Except.error () := rfl

/-- The head of a nonempty `dropWhile` result fails the predicate. -/
theorem dropWhile_head_not {α : Type} (p : α → Bool) :
    ∀ (l : List α) (d : α) (t : List α), l.dropWhile p = d :: t → p d = false := by
  intro l
  induction l with
  | nil => intro d t h; simp [List.dropWhile] at h
  | cons a l ih =>
    intro d t h
    rw [List.dropWhile_cons] at h
    by_cases hp : p a = true
    · rw [if_pos hp] at h
      exact ih d t h
    · rw [if_neg hp] at h
      cases h
      simpa using hp

/-- Characterization of a successful anchored match: the matched span is
exactly `[audio:` + nonempty `]`-free content + `]`. -/
theorem matchAudioAt_some {cs content : List Char} {n : Nat}
    (h : matchAudioAt cs = some (content, n)) :
    n = content.length + 8 ∧ content ≠ [] ∧ (∀ c ∈ content, ¬ c = ']') ∧
    ∃ rest, cs = audioTagChars ++ (content ++ ']' :: rest) := by
  simp only [matchAudioAt] at h
  split_ifs at h with h1 h2
  · obtain ⟨hcne, hdne⟩ := h2
    injection h with h
    injection h with hc hn
    have hpre : audioTagChars <+: cs := List.isPrefixOf_iff_prefix.mp h1
    have hcs : audioTagChars ++ cs.drop 7 = cs := by
      have := List.prefix_iff_eq_append.mp hpre
      simpa using this
    refine ⟨by rw [← hc]; exact hn.symm, hc ▸ hcne, ?_, ?_⟩
    · intro c hci
      rw [← hc] at hci
      have := List.mem_takeWhile_imp hci
      simpa using this
    · obtain ⟨d, t', hd⟩ : ∃ d t',
          (cs.drop 7).dropWhile (fun c => decide (c ≠ ']')) = d :: t' := by
        cases e : (cs.drop 7).dropWhile (fun c => decide (c ≠ ']')) with
        | nil => exact absurd e hdne
        | cons d t' => exact ⟨d, t', rfl⟩
      have hdval : d = ']' := by
        have := dropWhile_head_not _ _ _ _ hd
        simpa using this
      have hsplit : cs.drop 7 = content ++ ']' :: t' := by
        conv_lhs => rw [← List.takeWhile_append_dropWhile
          (fun c => decide (c ≠ ']')) (cs.drop 7)]
        rw [hc, hd, hdval]
      exact ⟨t', by rw [← hcs, hsplit]⟩

/-- A successful match covers at least the tag, one content character and
the closing bracket, and no more than the whole text. -/
theorem matchAudioAt_some_length {cs content : List Char} {n : Nat}
    (h : matchAudioAt cs = some (content, n)) :
    9 ≤ n ∧ n ≤ cs.length := by
  obtain ⟨hn, hcne, _, rest, hdec⟩ := matchAudioAt_some h
  have hlen : cs.length = content.length + rest.length + 8 := by
    subst hdec
    simp [audioTagChars]
    omega
  have : 1 ≤ content.length := by
    cases content with
    | nil => exact absurd rfl hcne
    | cons _ _ => simp
  omega

/-- Invariant of the finditer scan: every emitted placeholder lies at or
after the scan position, spans a well-formed match inside the text, and
stores the trimmed content. -/
theorem parseAux_mem :
    ∀ (fuel : Nat) (cs : List Char) (pos : Nat) (p : AudioPlaceholder),
      p ∈ parseAudioAux fuel cs pos →
      pos ≤ p.start ∧ p.start + 9 ≤ p.endPos ∧ p.endPos ≤ pos + cs.length ∧
      ∃ content rest, content ≠ [] ∧ (∀ c ∈ content, ¬ c = ']') ∧
        p.endPos = p.start + (content.length + 8) ∧
        p.value = pyStrip content ∧
        cs.drop (p.start - pos) = audioTagChars ++ (content ++ ']' :: rest) := by
  intro fuel
  induction fuel with
  | zero => intro cs pos p h; simp [parseAudioAux] at h
  | succ m ih =>
    intro cs pos p h
    match cs with
    | [] => simp [parseAudioAux] at h
    | c :: cs' =>
      rw [parseAudioAux] at h
      cases e : matchAudioAt (c :: cs') with
      | some v =>
        obtain ⟨content, n⟩ := v
        rw [e] at h
        obtain ⟨hn9, hnlen⟩ := matchAudioAt_some_length e
        obtain ⟨hn, hcne, hnb, rest, hdec⟩ := matchAudioAt_some e
        rcases List.mem_cons.mp h with h | h
        · subst h
          refine ⟨le_refl _, ?_, ?_, content, rest, hcne, hnb, ?_, rfl, ?_⟩
          · show pos + 9 ≤ pos + n
            omega
          · show pos + n ≤ pos + (c :: cs').length
            omega
          · show pos + n = pos + (content.length + 8)
            omega
          · show (c :: cs').drop (pos - pos) = _
            simpa using hdec
        · obtain ⟨h1, h2, h3, content', rest', hcne', hnb', hend', hval', hdec'⟩ :=
            ih ((c :: cs').drop n) (pos + n) p h
          have hdrop : ((c :: cs').drop n).drop (p.start - (pos + n)) =
              (c :: cs').drop (p.start - pos) := by
            rw [List.drop_drop]
            congr 1
            omega
          refine ⟨by omega, h2, ?_, content', rest', hcne', hnb', hend', hval', ?_⟩
          · have := List.length_drop n (c :: cs')
            omega
          · rw [← hdrop]
            exact hdec'
      | none =>
        rw [e] at h
        obtain ⟨h1, h2, h3, content', rest', hcne', hnb', hend', hval', hdec'⟩ :=
          ih cs' (pos + 1) p h
        have hdrop : cs'.drop (p.start - (pos + 1)) =
            (c :: cs').drop (p.start - pos) := by
          have : p.start - pos = (p.start - (pos + 1)) + 1 := by omega
          rw [this, List.drop_succ_cons]
        refine ⟨by omega, h2, by simp; omega, content', rest', hcne', hnb',
          hend', hval', ?_⟩
        rw [← hdrop]
        exact hdec'

/-- The finditer scan emits placeholders pairwise ordered: each match ends
at or before the next one starts. -/
theorem parseAux_pairwise :
    ∀ (fuel : Nat) (cs : List Char) (pos : Nat),
      (parseAudioAux fuel cs pos).Pairwise
        (fun p q => p.endPos ≤ q.start ∧ p.start < q.start) := by
  intro fuel
  induction fuel with
  | zero => intro cs pos; simp [parseAudioAux]
  | succ m ih =>
    intro cs pos
    match cs with
    | [] => simp [parseAudioAux]
    | c :: cs' =>
      rw [parseAudioAux]
      cases e : matchAudioAt (c :: cs') with
      | some v =>
        obtain ⟨content, n⟩ := v
        obtain ⟨hn9, hnlen⟩ := matchAudioAt_some_length e
        refine List.pairwise_cons.mpr ⟨?_, ih _ _⟩
        intro q hq
        obtain ⟨h1, -⟩ := parseAux_mem m _ (pos + n) q hq
        exact ⟨h1, by show pos < q.start; omega⟩
      | none => exact ih cs' (pos + 1)

/-- C9: `parse_audio_placeholders` returns placeholders in strictly
increasing, non-overlapping start order, and for each one the slice
`t[start:end]` is exactly the matched substring including the surrounding
brackets — `[audio:` + content + `]` with nonempty `]`-free content — while
the stored value is the content with surrounding whitespace trimmed. -/
theorem parse_audio_placeholders_spec :
    ∀ t : List Char,
      (parse_audio_placeholders t).Pairwise
        (fun p q => p.endPos ≤ q.start ∧ p.start < q.start) ∧
      ∀ p ∈ parse_audio_placeholders t,
        p.start < p.endPos ∧ p.endPos ≤ t.length ∧
        ∃ content, content ≠ [] ∧ (∀ c ∈ content, ¬ c = ']') ∧
          (t.drop p.start).take (p.endPos - p.start) =
            audioTagChars ++ (content ++ [']']) ∧
          p.value = pyStrip content := by
  intro t
  constructor
  · exact parseAux_pairwise t.length t 0
  · intro p hp
    obtain ⟨h1, h2, h3, content, rest, hcne, hnb, hend, hval, hdec⟩ :=
      parseAux_mem t.length t 0 p hp
    rw [Nat.sub_zero] at hdec
    refine ⟨by omega, by simpa using h3, content, hcne, hnb, ?_, hval⟩
    have hspan : p.endPos - p.start = content.length + 8 := by omega
    rw [hspan, hdec, List.take_append_eq_append_take,
      List.take_of_length_le (by simp [audioTagChars])]
    congr 1
    have hrest : content.length + 8 - audioTagChars.length =
        content.length + 1 := by simp [audioTagChars]
    rw [hrest, List.take_append_eq_append_take,
      List.take_of_length_le (by omega), Nat.add_sub_cancel_left]
    simp

/-- Witness for C9 on `"[audio: x]"`, whose single placeholder is
`⟨['x'], 0, 10⟩`. -/
theorem parse_audio_placeholders_spec_witness :
    (⟨['x'], 0, 10⟩ : AudioPlaceholder).start <
      (⟨['x'], 0, 10⟩ : AudioPlaceholder).endPos ∧
    (⟨['x'], 0, 10⟩ : AudioPlaceholder).endPos ≤ "[audio: x]".data.length ∧
    ∃ content, content ≠ [] ∧ (∀ c ∈ content, ¬ c = ']') ∧
      ("[audio: x]".data.drop (⟨['x'], 0, 10⟩ : AudioPlaceholder).start).take
          ((⟨['x'], 0, 10⟩ : AudioPlaceholder).endPos -
            (⟨['x'], 0, 10⟩ : AudioPlaceholder).start) =
        audioTagChars ++ (content ++ [']']) ∧
      (⟨['x'], 0, 10⟩ : AudioPlaceholder).value = pyStrip content :=
  (parse_audio_placeholders_spec "[audio: x]".data).2 ⟨['x'], 0, 10⟩ (by decide)


/-- The source's replacement function agrees with the spec's description. -/
theorem replaceWithKey_eq_specIconFor (n : Nat) :
    replaceWithKey n = specIconFor n := by
  unfold replaceWithKey specIconFor
  rcases le_or_lt n 5 with h | h
  · rw [if_pos (by omega), if_pos h]
  · rw [if_neg (by omega), if_neg (by omega)]

/-- Shifting one uncopied character through a stitch whose first span lies
strictly beyond the current position. -/
theorem stitchWith_cons_shift (rep : Nat → List Char) (c : Char)
    (cs : List Char) (pos k : Nat) (p : AudioPlaceholder)
    (ps : List AudioPlaceholder) (h1 : pos + 1 ≤ p.start)
    (h2 : pos + 1 ≤ p.endPos) :
    stitchWith rep (c :: cs) pos k (p :: ps) =
      c :: stitchWith rep cs (pos + 1) k (p :: ps) := by
  rw [stitchWith, stitchWith]
  have e1 : p.start - pos = (p.start - (pos + 1)) + 1 := by omega
  have e2 : p.endPos - pos = (p.endPos - (pos + 1)) + 1 := by omega
  rw [e1, e2, List.take_succ_cons, List.drop_succ_cons]
  simp

/-- The `re.sub` scan equals stitching the replacements into the gaps of
the `re.finditer` scan, for any sufficient fuel. -/
theorem subAux_eq_stitch :
    ∀ (fuel : Nat) (cs : List Char) (pos k : Nat), cs.length ≤ fuel →
      subAudioAux fuel cs k =
        stitchWith replaceWithKey cs pos k (parseAudioAux fuel cs pos) := by
  intro fuel
  induction fuel with
  | zero =>
    intro cs pos k hlen
    have : cs = [] := List.length_eq_zero.mp (by omega)
    subst this
    simp [subAudioAux, parseAudioAux, stitchWith]
  | succ m ih =>
    intro cs pos k hlen
    match cs with
    | [] => simp [subAudioAux, parseAudioAux, stitchWith]
    | c :: cs' =>
      rw [subAudioAux, parseAudioAux]
      cases e : matchAudioAt (c :: cs') with
      | some v =>
        obtain ⟨content, n⟩ := v
        obtain ⟨hn9, hnlen⟩ := matchAudioAt_some_length e
        rw [stitchWith]
        have hstart : pos - pos = 0 := by omega
        have hend : pos + n - pos = n := by omega
        show replaceWithKey (k + 1) ++ subAudioAux m ((c :: cs').drop n) (k + 1) =
          (c :: cs').take (pos - pos) ++ replaceWithKey (k + 1) ++
            stitchWith replaceWithKey ((c :: cs').drop (pos + n - pos)) (pos + n)
              (k + 1) (parseAudioAux m ((c :: cs').drop n) (pos + n))
        rw [hstart, hend, List.take_zero, List.nil_append]
        congr 1
        refine ih _ (pos + n) (k + 1) ?_
        have := List.length_drop n (c :: cs')
        omega
      | none =>
        cases hps : parseAudioAux m cs' (pos + 1) with
        | nil =>
          rw [stitchWith]
          have : subAudioAux m cs' k =
              stitchWith replaceWithKey cs' (pos + 1) k
                (parseAudioAux m cs' (pos + 1)) :=
            ih cs' (pos + 1) k (by simp at hlen; omega)
          rw [hps, stitchWith] at this
          rw [this]
        | cons p ps =>
          have hmem : p ∈ parseAudioAux m cs' (pos + 1) := by
            rw [hps]; exact List.mem_cons_self _ _
          obtain ⟨hp1, hp2, -⟩ := parseAux_mem m cs' (pos + 1) p hmem
          rw [stitchWith_cons_shift replaceWithKey c cs' pos k p ps hp1 (by omega)]
          have : subAudioAux m cs' k =
              stitchWith replaceWithKey cs' (pos + 1) k
                (parseAudioAux m cs' (pos + 1)) :=
            ih cs' (pos + 1) k (by simp at hlen; omega)
          rw [hps] at this
          rw [this]

/-- C4: `substitute_audio_icons` replaces every audio placeholder in order
of appearance — the substitution equals stitching the spec's icon for the
Nth match (1-indexed: icon plus key `[N+4]` for N in 1..5, bare icon from
the 6th on) into the gaps between the parsed placeholder spans. -/
theorem substitute_audio_icons_spec :
    ∀ t : List Char,
      substitute_audio_icons t =
        stitchWith specIconFor t 0 0 (parse_audio_placeholders t) := by
  intro t
  have hfun : replaceWithKey = specIconFor := funext replaceWithKey_eq_specIconFor
  rw [substitute_audio_icons, parse_audio_placeholders, ← hfun]
  exact subAux_eq_stitch t.length t 0 0 (le_refl _)

/-- C10: `substitute_audio_icons` is the identity on placeholder-free text,
and in general every character outside the matched placeholder spans is
carried to the output unchanged (the substitution equals the verbatim-gap
stitching of the source's replacement function). -/
theorem substitute_audio_icons_id_on_plain :
    ∀ t : List Char,
      (parse_audio_placeholders t = [] → substitute_audio_icons t = t) ∧
      substitute_audio_icons t =
        stitchWith replaceWithKey t 0 0 (parse_audio_placeholders t) := by
  intro t
  have hstitch : substitute_audio_icons t =
      stitchWith replaceWithKey t 0 0 (parse_audio_placeholders t) := by
    rw [substitute_audio_icons, parse_audio_placeholders]
    exact subAux_eq_stitch t.length t 0 0 (le_refl _)
  refine ⟨?_, hstitch⟩
  intro hempty
  rw [hstitch, hempty, stitchWith]

/-- Witness for C10: on `"abc"` (no placeholders) the substitution is the
identity. -/
theorem substitute_audio_icons_id_on_plain_witness :
    substitute_audio_icons "abc".data = "abc".data :=
  (substitute_audio_icons_id_on_plain "abc".data).1 (by decide)

/-- A nonempty all-word text starts with a word character. -/
theorem startsWithWord_of_all {cs : List Char} (hne : cs ≠ [])
    (hall : cs.all isWordCharSpec = true) : startsWithWord cs = true := by
  cases cs with
  | nil => exact absurd rfl hne
  | cons c cs' =>
    have := (List.all_eq_true.mp hall) c (List.mem_cons_self _ _)
    simpa [startsWithWord] using this

/-- A nonempty all-word text ends with a word character. -/
theorem endsWithWord_of_all {cs : List Char} (hne : cs ≠ [])
    (hall : cs.all isWordCharSpec = true) : endsWithWord cs = true := by
  have hlast : cs.getLast? = some (cs.getLast hne) := List.getLast?_eq_getLast cs hne
  have hmem : cs.getLast hne ∈ cs := List.getLast_mem hne
  have := (List.all_eq_true.mp hall) _ hmem
  simp [endsWithWord, hlast, this]

/-- The last character of an append with nonempty right part. -/
theorem endsWithWord_append (a b : List Char) (hb : b ≠ []) :
    endsWithWord (a ++ b) = endsWithWord b := by
  unfold endsWithWord
  rw [List.getLast?_append_of_ne_nil a hb]

/-- Repair of a word-only piece onto empty output: plain copy, no leading
space. -/
theorem repairJoin_nil (piece : List Char) (b : Bool) :
    repairJoin [] piece b = piece := by
  unfold repairJoin
  simp

/-- Repair of a word-only piece onto nonempty word-ending output: a single
space is inserted exactly when the boundary is styled. -/
theorem repairJoin_words_cons (out piece : List Char) (b : Bool)
    (hone : out ≠ []) (hend : endsWithWord out = true) (hne : piece ≠ [])
    (hall : piece.all isWordCharSpec = true) :
    repairJoin out piece b = out ++ ((if b then [' '] else []) ++ piece) := by
  unfold repairJoin
  have hsw := startsWithWord_of_all hne hall
  rw [hsw, hend]
  cases b with
  | false => simp
  | true => simp [hone]


/-- The running fold agrees with `specWordLayout` once a unit has been
emitted. -/
theorem tailLayout_eq_specWordLayout :
    ∀ (us : List RenderUnit) (prev : Bool) (v : RenderUnit),
      tailLayout prev (v :: us) =
        (if prev || v.isStyled then [' '] else []) ++ specWordLayout (v :: us) := by
  intro us
  induction us with
  | nil => intro prev v; simp [tailLayout, specWordLayout]
  | cons w us ih =>
    intro prev v
    rw [tailLayout, ih v.isStyled w, specWordLayout]
    simp

/-- Accumulation lemma for the repair fold over word-only units. -/
theorem renderStyledAux_words :
    ∀ (us : List RenderUnit) (out : List Char) (prev : Bool),
      (∀ u ∈ us, u.text ≠ [] ∧ u.text.all isWordCharSpec = true) →
      out ≠ [] → endsWithWord out = true →
      renderStyledAux out prev us = out ++ tailLayout prev us := by
  intro us
  induction us with
  | nil => intro out prev _ _ _; simp [renderStyledAux, tailLayout]
  | cons u us ih =>
    intro out prev hall hone hend
    obtain ⟨hu1, hu2⟩ := hall u (List.mem_cons_self _ _)
    rw [renderStyledAux,
      repairJoin_words_cons out u.text (prev || u.isStyled) hone hend hu1 hu2,
      ih _ u.isStyled (fun v hv => hall v (List.mem_cons_of_mem _ hv))
        (by simp [hu1])
        (by rw [endsWithWord_append _ _ (by simp [hu1]),
              endsWithWord_append _ _ hu1]
            exact endsWithWord_of_all hu1 hu2),
      tailLayout]
    simp

/-- C3 (spec-modelled): over the unit stream of the styled-segment
transducer, with word-character texts, the rendered output equals the
texts joined by a single inserted space at every boundary adjacent to a
styled/cloze unit — so adjacent words are never concatenated across a
styled boundary — and when a styled unit is the very first content, its
text is a prefix of the output (no leading space is inserted). -/
theorem styled_whitespace_repair :
    ∀ us : List RenderUnit,
      (∀ u ∈ us, u.text ≠ [] ∧ u.text.all isWordCharSpec = true) →
      renderStyledUnits us = specWordLayout us ∧
      (∀ (b : List Char) (t0 : List RenderUnit),
        us = RenderUnit.styled b :: t0 → b <+: renderStyledUnits us) := by
  intro us hall
  have h1 : renderStyledUnits us = specWordLayout us := by
    cases us with
    | nil => rfl
    | cons u us' =>
      obtain ⟨hu1, hu2⟩ := hall u (List.mem_cons_self _ _)
      rw [renderStyledUnits, renderStyledAux, repairJoin_nil]
      cases us' with
      | nil => simp [renderStyledAux, specWordLayout]
      | cons v vs =>
        rw [renderStyledAux_words (v :: vs) u.text u.isStyled
              (fun w hw => hall w (List.mem_cons_of_mem _ hw)) hu1
              (endsWithWord_of_all hu1 hu2),
            tailLayout_eq_specWordLayout]
        rw [specWordLayout]
        simp
  refine ⟨h1, ?_⟩
  intro b t0 heq
  rw [h1, heq]
  cases t0 with
  | nil => exact ⟨[], by simp [specWordLayout, RenderUnit.text]⟩
  | cons v vs =>
    refine ⟨(if (RenderUnit.styled b).isStyled || v.isStyled then [' '] else []) ++
      specWordLayout (v :: vs), ?_⟩
    rw [specWordLayout]
    simp [RenderUnit.text]

/-- Witness for C3 on the spec's own example `word<b>bold</b>next`. -/
theorem styled_whitespace_repair_witness :
    renderStyledUnits
        [RenderUnit.data "word".data, RenderUnit.styled "bold".data,
          RenderUnit.data "next".data] =
      specWordLayout
        [RenderUnit.data "word".data, RenderUnit.styled "bold".data,
          RenderUnit.data "next".data] :=
  (styled_whitespace_repair _ (by decide)).1


/-- The spec-side per-line step equals the source's per-line computation. -/
theorem specLineOut_eq (line : List Char) :
    specLineOut line =
      if collapseInner line = [] then []
      else cleanIndent (line.takeWhile isSpaceChar) ++ collapseInner line := by
  unfold specLineOut cleanIndent
  by_cases h : collapseInner line = []
  · simp [h]
  · rw [if_neg h, if_neg h]
    by_cases hl : line.takeWhile isSpaceChar = []
    · simp [hl]
    · by_cases ha : (line.takeWhile isSpaceChar).all (fun c => c = ' ') = true
      · simp [hl, ha]
      · simp [hl, ha]

/-- Squeeze computation rules. -/
theorem squeeze_cons_blank_true (l : List (List Char)) :
    squeezeBlankRuns true ([] :: l) = squeezeBlankRuns true l := by
  rw [squeezeBlankRuns]
  simp

theorem squeeze_cons_blank_false (l : List (List Char)) :
    squeezeBlankRuns false ([] :: l) = [] :: squeezeBlankRuns true l := by
  rw [squeezeBlankRuns]
  simp

theorem squeeze_cons_ne (b : Bool) (x : List Char) (l : List (List Char))
    (hx : x ≠ []) :
    squeezeBlankRuns b (x :: l) = x :: squeezeBlankRuns false l := by
  rw [squeezeBlankRuns]
  simp [hx]

/-- The accumulator phase of the normalization loop: with a nonempty
accumulator, the remaining lines contribute the squeezed blank structure,
where the flag records whether the accumulator ends with a blank line. -/
theorem cleanedFoldAux_squeeze :
    ∀ (ls : List (List Char)) (acc : List (List Char)) (b : Bool),
      acc ≠ [] → (b = true ↔ acc.getLast? = some []) →
      cleanedFoldAux acc ls =
        acc ++ squeezeBlankRuns b (ls.map specLineOut) := by
  intro ls
  induction ls with
  | nil => intro acc b _ _; simp [cleanedFoldAux, squeezeBlankRuns]
  | cons line rest ih =>
    intro acc b hacc hb
    rw [cleanedFoldAux, List.map_cons]
    by_cases hc : collapseInner line = []
    · have hx : specLineOut line = [] := by rw [specLineOut_eq, if_pos hc]
      rw [hx]
      cases b with
      | true =>
        have hlast : acc.getLast? = some [] := hb.mp rfl
        rw [if_neg (by simp [hc]), if_neg (by simp [hlast]),
          squeeze_cons_blank_true]
        exact ih acc true hacc hb
      | false =>
        have hlast : acc.getLast? ≠ some [] := by
          intro hcon
          exact absurd (hb.mpr hcon) (by simp)
        rw [if_neg (by simp [hc]), if_pos ⟨hacc, hlast⟩,
          squeeze_cons_blank_false]
        rw [ih (acc ++ [[]]) true (by simp) (by simp)]
        simp
    · have hx : specLineOut line =
          cleanIndent (line.takeWhile isSpaceChar) ++ collapseInner line := by
        rw [specLineOut_eq, if_neg hc]
      have hxne : specLineOut line ≠ [] := by
        rw [hx]
        simp [hc]
      rw [if_pos hc]
      rw [squeeze_cons_ne b _ _ hxne]
      rw [ih (acc ++ [cleanIndent (line.takeWhile isSpaceChar) ++ collapseInner line])
        false (by simp) (by simp [← hx, hxne])]
      simp [hx]

/-- The start phase: from an empty accumulator the loop both skips leading
blanks and collapses blank runs. -/
theorem cleanedFoldAux_start :
    ∀ ls : List (List Char),
      cleanedFoldAux [] ls =
        dropLeadBlanks (squeezeBlankRuns false (ls.map specLineOut)) ∧
      cleanedFoldAux [] ls =
        dropLeadBlanks (squeezeBlankRuns true (ls.map specLineOut)) := by
  intro ls
  induction ls with
  | nil => simp [cleanedFoldAux, squeezeBlankRuns, dropLeadBlanks]
  | cons line rest ih =>
    rw [cleanedFoldAux, List.map_cons]
    by_cases hc : collapseInner line = []
    · have hx : specLineOut line = [] := by rw [specLineOut_eq, if_pos hc]
      rw [hx, if_neg (by simp [hc]), if_neg (by simp)]
      constructor
      · rw [squeeze_cons_blank_false]
        rw [dropLeadBlanks, List.dropWhile_cons, if_pos (by simp)]
        exact ih.2
      · rw [squeeze_cons_blank_true]
        exact ih.2
    · have hx : specLineOut line =
          cleanIndent (line.takeWhile isSpaceChar) ++ collapseInner line := by
        rw [specLineOut_eq, if_neg hc]
      have hxne : specLineOut line ≠ [] := by
        rw [hx]; simp [hc]
      rw [if_pos hc, List.nil_append]
      have hfold := cleanedFoldAux_squeeze rest
        [cleanIndent (line.takeWhile isSpaceChar) ++ collapseInner line]
        false (by simp) (by simp [← hx, hxne])
      constructor
      · rw [squeeze_cons_ne false _ _ hxne, hfold]
        rw [dropLeadBlanks, List.dropWhile_cons, if_neg (by simpa using hxne)]
        simp [hx]
      · rw [squeeze_cons_ne true _ _ hxne, hfold]
        rw [dropLeadBlanks, List.dropWhile_cons, if_neg (by simpa using hxne)]
        simp [hx]

/-- Trailing-blank trimming yields a prefix of the input. -/
theorem dropTrailBlanks_isPrefix (l : List (List Char)) :
    dropTrailBlanks l <+: l := by
  unfold dropTrailBlanks
  have h := List.dropWhile_suffix (l := l.reverse) (fun x => decide (x = []))
  have := h.reverse
  simpa using this

/-- Trimming leading blanks after trimming trailing blanks of a
leading-blank-free list does nothing. -/
theorem dropLead_dropTrail_dropLead (X : List (List Char)) :
    dropLeadBlanks (dropTrailBlanks (dropLeadBlanks X)) =
      dropTrailBlanks (dropLeadBlanks X) := by
  cases hY : dropLeadBlanks X with
  | nil => simp [dropTrailBlanks, dropLeadBlanks]
  | cons y ys =>
    have hy : y ≠ [] := by
      have : (fun l => decide (l = [])) y = false := by
        have := dropWhile_head_not (fun l : List Char => decide (l = [])) X y ys hY
        exact this
      simpa using this
    have hpre := dropTrailBlanks_isPrefix (y :: ys)
    obtain ⟨t, ht⟩ := hpre
    cases hdt : dropTrailBlanks (y :: ys) with
    | nil => simp [dropLeadBlanks]
    | cons z zs =>
      have hz : z = y := by
        rw [hdt] at ht
        exact (List.cons.injEq _ _ _ _ ▸ ht).1
      rw [dropLeadBlanks, List.dropWhile_cons, if_neg (by simp [hz, hy])]

/-- C7 (amended): the final whitespace normalization equals the spec-side
pipeline — per line, inner whitespace runs collapse to single spaces with
the ends stripped, all-space leading indentation is kept rounded down to a
multiple of 2 spaces while other leading whitespace is discarded; runs of
blank lines collapse to a single blank line; and leading and trailing blank
lines are trimmed from the document. -/
theorem normalize_whitespace_spec :
    ∀ t : List Char, _normalize_whitespace t = specNormalize t := by
  intro t
  unfold _normalize_whitespace specNormalize
  congr 1
  rw [(cleanedFoldAux_start (pySplitlines t)).1]
  exact dropLead_dropTrail_dropLead _

/-- C7 counterexample: on a line with three leading spaces the
normalization keeps two of them (the floor to a multiple of 2), instead of
discarding the non-multiple-of-2 leading whitespace as the claim states. -/
theorem normalize_whitespace_counterexample :
    _normalize_whitespace "   a".data = "  a".data ∧
      _normalize_whitespace "   a".data ≠ "a".data := by
  constructor
  · decide
  · decide

end Clanki
